import Mathlib

set_option autoImplicit false

namespace BabyNest

/-!
# BabyNest — verification of the event-driven context cache and the
inference-response memo

The inference-response memo is embedded from
`src/Frontend/src/Screens/ChatScreen.jsx` (`setCache` / `getCache` over a
JavaScript `Map`).  The backend event-driven cache core (fingerprints,
state store, context cache, status query) is modelled from the
specification, since only its documentation ships in the repository.
-/

/-! ## JavaScript `Map` model

A JavaScript `Map` is an insertion-ordered collection of key/value pairs
with unique keys.  `set` on a present key updates the value in place and
keeps the key's original position; on an absent key it appends at the end.
`keys()` iterates in that order, so `keys().next().value` is the
first-inserted key still present.  We model it as an association list in
insertion order. -/

section JsMapModel

variable {K V : Type} [DecidableEq K]

/-- `Map.prototype.get`: the value stored under `k`, if present. -/
def jsGet (k : K) (m : List (K × V)) : Option V :=
  (m.find? (fun kv => decide (kv.1 = k))).map (fun kv => kv.2)

/-- `Map.prototype.set`: update in place when the key is present (keeping
its position), append at the end otherwise. -/
def jsSet (k : K) (v : V) : List (K × V) → List (K × V)
  | [] => [(k, v)]
  | kv :: rest => if kv.1 = k then (k, v) :: rest else kv :: jsSet k v rest

/-- `Map.prototype.delete`: remove the entry stored under `k`, if any. -/
def jsDelete (k : K) : List (K × V) → List (K × V)
  | [] => []
  | kv :: rest => if kv.1 = k then rest else kv :: jsDelete k rest

end JsMapModel

/-! ## Inference-response memo (`ChatScreen.jsx`, lines 919–943) -/

/-- An entry of `responseCache`: the stored value together with the
`Date.now()` timestamp recorded at insertion. -/
structure MemoEntry (V : Type) where
  value : V
  timestamp : Nat
deriving DecidableEq, Repr

/-- `const MAX_CACHE_SIZE = 100;` -/
def MAX_CACHE_SIZE : Nat := 100

/-- `const CACHE_TTL_MS = 30 * 60 * 1000;` (30 minutes) -/
def CACHE_TTL_MS : Nat := 30 * 60 * 1000

/-- `setCache` from `ChatScreen.jsx`: when the memo already holds
`MAX_CACHE_SIZE` entries, delete `responseCache.keys().next().value`
(the first key in insertion order), then store
`{ value, timestamp: Date.now() }` under `key`.  `now` stands for
`Date.now()`. -/
def setCache {K V : Type} [DecidableEq K] (now : Nat) (key : K) (value : V)
    (m : List (K × MemoEntry V)) : List (K × MemoEntry V) :=
  let m1 :=
    if MAX_CACHE_SIZE ≤ m.length then
      match m.head? with
      | some kv => jsDelete kv.1 m
      | none => m
    else m
  jsSet key ⟨value, now⟩ m1

/-- `getCache` from `ChatScreen.jsx`: a missing entry yields `null`; an
entry older than `CACHE_TTL_MS` (strictly, `now - timestamp > TTL`) is
deleted and yields `null`; otherwise the stored value is returned.  The
second component is the memo after the call. -/
def getCache {K V : Type} [DecidableEq K] (now : Nat) (key : K)
    (m : List (K × MemoEntry V)) : Option V × List (K × MemoEntry V) :=
  match jsGet key m with
  | none => (none, m)
  | some e =>
    if CACHE_TTL_MS < now - e.timestamp then (none, jsDelete key m)
    else (some e.value, m)

/-- One call against the memo: either `setCache` or `getCache`, with the
`Date.now()` value observed by that call. -/
inductive MemoOp (K V : Type) where
  | set (now : Nat) (key : K) (value : V)
  | get (now : Nat) (key : K)
deriving DecidableEq, Repr

/-- The effect of one call on the memo. -/
def applyOp {K V : Type} [DecidableEq K] :
    MemoOp K V → List (K × MemoEntry V) → List (K × MemoEntry V)
  | .set now k v, m => setCache now k v m
  | .get now k, m => (getCache now k m).2

/-- Run a sequence of memo calls from a starting memo. -/
def runOps {K V : Type} [DecidableEq K] :
    List (MemoOp K V) → List (K × MemoEntry V) → List (K × MemoEntry V)
  | [], m => m
  | op :: ops, m => runOps ops (applyOp op m)

/-- A trace that stores value `42` under key `0` and then inserts 100
further keys, which evicts key `0` by the size bound. -/
def evictTrace : List (MemoOp Nat Nat) :=
  MemoOp.set 0 0 42 :: (List.range 100).map (fun i => MemoOp.set 0 (i + 1) 0)

/-- 99 further memo entries under keys `1..99`: together with a head entry
this fills the memo to `MAX_CACHE_SIZE`. -/
def rest99 : List (Nat × MemoEntry Nat) :=
  (List.range 99).map (fun i => (i + 1, ⟨0, 0⟩))

/-- A one-entry memo: value `10` stored under key `1` at time `2`. -/
def demoMemo : List (Nat × MemoEntry Nat) := [(1, ⟨10, 2⟩)]

/-! ## Backend event-driven context cache

The backend implementation (Python, described by the repository's
event-driven cache documentation) is not part of the source tree, so the
following definitions are modelled from the specification. -/

/-- Modelled from the spec: the fixed allow-list of monitored tables
(§3 MonitoredTable); the backend table enumeration itself is missing from
the source tree. -/
inductive MonitoredTable where
  | profile
  | weekly_weight
  | weekly_medicine
  | weekly_symptoms
  | blood_pressure_logs
  | discharge_logs
deriving DecidableEq, Fintype, Repr

/-- Modelled from the spec: the allow-list as the table-name strings used
at the query boundary and reported by the status query. -/
def allowList : List String :=
  ["profile", "weekly_weight", "weekly_medicine", "weekly_symptoms",
   "blood_pressure_logs", "discharge_logs"]

/-- Modelled from the spec: resolution of a table-name string to a
monitored table; names outside the allow-list resolve to `none`. -/
def tableOfName (s : String) : Option MonitoredTable :=
  if s = "profile" then some .profile
  else if s = "weekly_weight" then some .weekly_weight
  else if s = "weekly_medicine" then some .weekly_medicine
  else if s = "weekly_symptoms" then some .weekly_symptoms
  else if s = "blood_pressure_logs" then some .blood_pressure_logs
  else if s = "discharge_logs" then some .discharge_logs
  else none

/-- Modelled from the spec: a per-table change token, derived from row
count and max modification timestamp (§3 Fingerprint). -/
structure TableToken where
  rowCount : Nat
  maxTimestamp : Nat
deriving DecidableEq, Repr

/-- Modelled from the spec: a Fingerprint maps each monitored table to an
optional change token; `none` means the table has no observed entry. -/
structure Fingerprint where
  profile : Option TableToken
  weekly_weight : Option TableToken
  weekly_medicine : Option TableToken
  weekly_symptoms : Option TableToken
  blood_pressure_logs : Option TableToken
  discharge_logs : Option TableToken
deriving DecidableEq, Repr

/-- The token a fingerprint holds for a monitored table. -/
def Fingerprint.get (fp : Fingerprint) : MonitoredTable → Option TableToken
  | .profile => fp.profile
  | .weekly_weight => fp.weekly_weight
  | .weekly_medicine => fp.weekly_medicine
  | .weekly_symptoms => fp.weekly_symptoms
  | .blood_pressure_logs => fp.blood_pressure_logs
  | .discharge_logs => fp.discharge_logs

/-- Replace the token a fingerprint holds for one monitored table. -/
def Fingerprint.set (fp : Fingerprint) (t : MonitoredTable)
    (tok : Option TableToken) : Fingerprint :=
  match t with
  | .profile => { fp with profile := tok }
  | .weekly_weight => { fp with weekly_weight := tok }
  | .weekly_medicine => { fp with weekly_medicine := tok }
  | .weekly_symptoms => { fp with weekly_symptoms := tok }
  | .blood_pressure_logs => { fp with blood_pressure_logs := tok }
  | .discharge_logs => { fp with discharge_logs := tok }

/-- Modelled from the spec: the empty Fingerprint returned at first run
and after state corruption; it differs from any fingerprint holding a
token. -/
def emptyFingerprint : Fingerprint := ⟨none, none, none, none, none, none⟩

/-- Modelled from the spec: `hasChanged(old, new)` returns exactly the
monitored tables whose token differs (§4.1). -/
def hasChanged (oldFp newFp : Fingerprint) : Finset MonitoredTable :=
  Finset.univ.filter (fun t => oldFp.get t ≠ newFp.get t)

/-- Modelled from the spec: the error taxonomy of §7; the backend error
classes are missing from the source tree. -/
inductive CacheError where
  | invalidTable
  | stateCorruption
  | buildFailure
  | persistenceWrite
deriving DecidableEq, Repr

/-- Modelled from the spec: the record store, abstracted to the per-table
metadata (row count and max modification timestamp) that the lightweight
fingerprint query reads. -/
structure RecordStore where
  meta : String → TableToken

/-- Modelled from the spec: fold the store's metadata for the given
(already validated) table names into a fingerprint. -/
def buildFp (store : RecordStore) : List String → Fingerprint → Fingerprint
  | [], fp => fp
  | name :: rest, fp =>
    match tableOfName name with
    | some t => buildFp store rest (fp.set t (some (store.meta name)))
    | none => buildFp store rest fp

/-- Modelled from the spec: `FingerprintComputer.compute` (§4.1); the
backend implementation is missing from the source tree.  The table names
are validated against the allow-list before any metadata query is
constructed; the second component lists the metadata queries issued
against the store (one per table), so a rejected call issues none. -/
def compute (store : RecordStore) (tables : List String) :
    Except CacheError Fingerprint × List String :=
  if tables.all (fun t => allowList.contains t) then
    (.ok (buildFp store tables emptyFingerprint), tables)
  else
    (.error .invalidTable, [])

/-- A demo record store whose every metadata query returns the zero
token. -/
def demoStore : RecordStore := ⟨fun _ => ⟨0, 0⟩⟩

/-! ### StateStore (persisted fingerprint) -/

/-- Modelled from the spec: the schema/version marker of the persisted
state (§3 PersistedState). -/
def STATE_VERSION : Nat := 1

/-- Serialize one per-table token slot. -/
def encodeToken : Option TableToken → List Nat
  | none => [0]
  | some tok => [1, tok.rowCount, tok.maxTimestamp]

/-- Parse one per-table token slot, returning the remaining input. -/
def decodeToken : List Nat → Option (Option TableToken × List Nat)
  | 0 :: rest => some (none, rest)
  | 1 :: rc :: ts :: rest => some (some ⟨rc, ts⟩, rest)
  | _ => none

/-- Modelled from the spec: serialization of a fingerprint, tagged with a
version marker (§3 PersistedState); the backend serializer is missing
from the source tree. -/
def encodeFingerprint (fp : Fingerprint) : List Nat :=
  STATE_VERSION ::
    (encodeToken fp.profile ++ (encodeToken fp.weekly_weight ++
      (encodeToken fp.weekly_medicine ++ (encodeToken fp.weekly_symptoms ++
        (encodeToken fp.blood_pressure_logs ++ encodeToken fp.discharge_logs)))))

/-- Modelled from the spec: parsing of a persisted fingerprint; checks
the version marker, reads the six table slots, and ignores trailing
content (forward-compatible parsing); any malformed content yields
`none`. -/
def decodeFingerprint : List Nat → Option Fingerprint
  | v :: rest =>
    if v = STATE_VERSION then do
      let (p, r1) ← decodeToken rest
      let (w, r2) ← decodeToken r1
      let (md, r3) ← decodeToken r2
      let (sy, r4) ← decodeToken r3
      let (b, r5) ← decodeToken r4
      let (d, _) ← decodeToken r5
      pure ⟨p, w, md, sy, b, d⟩
    else none
  | [] => none

/-- Modelled from the spec: `StateStore.load` (§4.2); the backend
implementation is missing from the source tree.  The argument is the
persisted file (`none` = missing).  A missing file yields the empty
Fingerprint; malformed content yields the empty Fingerprint and discards
the file (second component is the file after the call).  `load` is total:
it never raises. -/
def load (file : Option (List Nat)) : Fingerprint × Option (List Nat) :=
  match file with
  | none => (emptyFingerprint, none)
  | some bytes =>
    match decodeFingerprint bytes with
    | some fp => (fp, some bytes)
    | none => (emptyFingerprint, none)

/-- Modelled from the spec: `StateStore.save` (§4.2): after the atomic
temp-write-then-rename, the canonical file holds exactly the
serialization of `fp`. -/
def save (fp : Fingerprint) : Option (List Nat) :=
  some (encodeFingerprint fp)

/-! ### ContextCache and status query -/

/-- Modelled from the spec: the context payload (§3 Context); only the
snapshot fields surfaced by the status query are modelled, the rest is
opaque to the cache core. -/
structure Context where
  current_week : Nat
  location : String
deriving DecidableEq, Repr

/-- Modelled from the spec: a cache entry `{userKey, context, builtAt,
valid}` (§3 CacheEntry), for one user key. -/
structure ContextEntry where
  context : Context
  builtAt : Nat
  valid : Bool
deriving DecidableEq, Repr

/-- The current valid entry, if any: an entry marked invalid does not
count. -/
def currentValidEntry : Option ContextEntry → Option ContextEntry
  | some e => if e.valid then some e else none
  | none => none

/-- Modelled from the spec: `ContextCache.invalidate` — marks the entry
invalid; a missing entry is a no-op. -/
def invalidateEntry : Option ContextEntry → Option ContextEntry
  | some e => some { e with valid := false }
  | none => none

/-- Modelled from the spec: the result a rebuilding `get` delivers to its
caller (§4.3): a successful build's context, or — on build failure — the
previous (now-invalidated) entry's context as stale fallback if one
exists, otherwise the builder's error. -/
def deliver (buildRes : Except CacheError Context)
    (entry : Option ContextEntry) : Except CacheError Context :=
  match buildRes with
  | .ok c => .ok c
  | .error err =>
    match entry with
    | some e => .ok e.context
    | none => .error err

/-- Modelled from the spec: the cache entry after a rebuild attempt
(§4.3): a successful build atomically replaces the entry with a fresh
valid one; a failed build leaves the entry unchanged (still invalid). -/
def buildEntry (buildRes : Except CacheError Context) (now : Nat)
    (entry : Option ContextEntry) : Option ContextEntry :=
  match buildRes with
  | .ok c => some ⟨c, now, true⟩
  | .error _ => entry

/-- Modelled from the spec: `ContextCache.get` for one user key (§4.3),
sequential view; the backend implementation is missing from the source
tree.  `buildRes` is the outcome of `ContextBuilder.build` were it
invoked.  Returns the caller's result and the entry after the call. -/
def cacheGet (buildRes : Except CacheError Context) (now : Nat)
    (entry : Option ContextEntry) :
    Except CacheError Context × Option ContextEntry :=
  match currentValidEntry entry with
  | some e => (.ok e.context, entry)
  | none => (deliver buildRes entry, buildEntry buildRes now entry)

/-- Modelled from the spec: the status query response (§6); fields as in
the documented `/agent/cache/status` JSON. -/
structure CacheStatus where
  cache_system : String
  cache_status : String
  auto_update : Bool
  has_context : Bool
  context_week : Option Nat
  context_location : Option String
  last_updated : Option Nat
  monitored_tables : List String
  note : String
deriving DecidableEq, Repr

/-- Modelled from the spec: the status query (§6); the backend endpoint
is missing from the source tree.  `monitored_tables` is the fixed
allow-list; `last_updated` is the `builtAt` of the current valid entry,
absent if none exists. -/
def getCacheStatus (entry : Option ContextEntry) : CacheStatus :=
  { cache_system := "event_driven"
    cache_status := "active"
    auto_update := true
    has_context := (currentValidEntry entry).isSome
    context_week := (currentValidEntry entry).map (fun e => e.context.current_week)
    context_location := (currentValidEntry entry).map (fun e => e.context.location)
    last_updated := (currentValidEntry entry).map (fun e => e.builtAt)
    monitored_tables := allowList
    note := "Cache automatically updates when database changes are detected" }

/-! ### Single-flight rebuild (concurrency model)

Modelled from the spec (§4.3, §5): for one user key, N foreground `get`
callers run concurrently while the entry is invalidated.  A caller that
finds no valid entry either starts the per-key rebuild (only when no
rebuild is in flight) or waits on the in-flight result; the rebuilder
publishes one shared result that every waiter receives. -/

instance {E A : Type} [DecidableEq E] [DecidableEq A] :
    DecidableEq (Except E A) := fun a b =>
  match a, b with
  | .ok x, .ok y =>
    if h : x = y then .isTrue (by rw [h]) else .isFalse (by simp [h])
  | .error x, .error y =>
    if h : x = y then .isTrue (by rw [h]) else .isFalse (by simp [h])
  | .ok _, .error _ => .isFalse (by simp)
  | .error _, .ok _ => .isFalse (by simp)

/-- Modelled from the spec: the control state of one foreground `get`
caller in the single-flight protocol. -/
inductive CallerState where
  | start
  | building
  | waiting
  | done (result : Except CacheError Context)
deriving DecidableEq, Repr

/-- Modelled from the spec: the per-key rebuild flight — no rebuild in
flight, builder invoked with result pending, or completed with the shared
result. -/
inductive FlightState where
  | idle
  | running
  | finished (r : Except CacheError Context)
deriving DecidableEq, Repr

/-- The shared state for one user key: the cache entry, the rebuild
flight, the number of `ContextBuilder.build` invocations so far, and the
control state of each caller. -/
structure SysState where
  entry : Option ContextEntry
  flight : FlightState
  builderCalls : Nat
  callers : List CallerState
deriving DecidableEq, Repr

/-- `n` concurrent `get` callers about to run against entry `entry0`,
with no rebuild in flight and the builder not yet invoked. -/
def initState (n : Nat) (entry0 : Option ContextEntry) : SysState :=
  ⟨entry0, .idle, 0, List.replicate n .start⟩

/-- Modelled from the spec: one interleaving step of the single-flight
protocol (§4.3).  `buildRes` is the outcome `ContextBuilder.build` has
for this key, `now` the build completion time. -/
inductive Step (buildRes : Except CacheError Context) (now : Nat) :
    SysState → SysState → Prop where
  | hit (s : SysState) (i : Nat) (e : ContextEntry) :
      s.callers[i]? = some .start →
      currentValidEntry s.entry = some e →
      Step buildRes now s
        { s with callers := s.callers.set i (.done (.ok e.context)) }
  | beginBuild (s : SysState) (i : Nat) :
      s.callers[i]? = some .start →
      currentValidEntry s.entry = none →
      s.flight = .idle →
      Step buildRes now s
        { s with flight := .running, builderCalls := s.builderCalls + 1,
                 callers := s.callers.set i .building }
  | observe (s : SysState) (i : Nat) :
      s.callers[i]? = some .start →
      currentValidEntry s.entry = none →
      s.flight ≠ .idle →
      Step buildRes now s
        { s with callers := s.callers.set i .waiting }
  | finishBuild (s : SysState) (i : Nat) :
      s.callers[i]? = some .building →
      s.flight = .running →
      Step buildRes now s
        { s with flight := .finished (deliver buildRes s.entry),
                 entry := buildEntry buildRes now s.entry,
                 callers := s.callers.set i (.done (deliver buildRes s.entry)) }
  | resume (s : SysState) (i : Nat) (r : Except CacheError Context) :
      s.callers[i]? = some .waiting →
      s.flight = .finished r →
      Step buildRes now s
        { s with callers := s.callers.set i (.done r) }

/-- The safety invariant of the single-flight protocol, for an episode
starting from entry `entry0` with `n` callers. -/
def Inv (buildRes : Except CacheError Context) (now : Nat)
    (entry0 : Option ContextEntry) (n : Nat) (s : SysState) : Prop :=
  s.callers.length = n ∧
  match s.flight with
  | .idle =>
      s.builderCalls = 0 ∧ s.entry = entry0 ∧
      ∀ (j : Nat) (c : CallerState), s.callers[j]? = some c → c = .start
  | .running =>
      s.builderCalls = 1 ∧ s.entry = entry0 ∧
      (∀ (j : Nat) (c : CallerState), s.callers[j]? = some c →
        c = .start ∨ c = .waiting ∨ c = .building) ∧
      (∀ j k : Nat, s.callers[j]? = some .building →
        s.callers[k]? = some .building → j = k)
  | .finished r =>
      s.builderCalls = 1 ∧ s.entry = buildEntry buildRes now entry0 ∧
      r = deliver buildRes entry0 ∧
      ∀ (j : Nat) (c : CallerState), s.callers[j]? = some c →
        c = .start ∨ c = .waiting ∨ c = .done r

/-- The demo context used in concrete runs. -/
def demoCtx : Context := ⟨25, "New York"⟩

/-- The state of a one-caller demo run after `beginBuild`. -/
def demoMid : SysState := ⟨none, .running, 1, [.building]⟩

/-- The state of a one-caller demo run after the build completed. -/
def demoFinal : SysState :=
  ⟨some ⟨demoCtx, 0, true⟩, .finished (.ok demoCtx), 1, [.done (.ok demoCtx)]⟩

/-- A previously valid, now-invalidated demo cache entry. -/
def demoStale : ContextEntry := ⟨demoCtx, 5, false⟩

/-! ## Memo lemmas -/

theorem jsSet_length_le {K V : Type} [DecidableEq K] (k : K) (v : V)
    (m : List (K × V)) : (jsSet k v m).length ≤ m.length + 1 := by
  induction m with
  | nil => simp [jsSet]
  | cons kv rest ih =>
    by_cases h : kv.1 = k
    · simp [jsSet, h]
    · simp only [jsSet, if_neg h, List.length_cons]
      omega

theorem jsDelete_length_le {K V : Type} [DecidableEq K] (k : K)
    (m : List (K × V)) : (jsDelete k m).length ≤ m.length := by
  induction m with
  | nil => simp [jsDelete]
  | cons kv rest ih =>
    by_cases h : kv.1 = k
    · simp [jsDelete, h]
    · simp only [jsDelete, if_neg h, List.length_cons]
      omega

theorem jsGet_jsSet {K V : Type} [DecidableEq K] (k : K) (v : V)
    (m : List (K × V)) : jsGet k (jsSet k v m) = some v := by
  induction m with
  | nil => simp [jsGet, jsSet, List.find?]
  | cons kv rest ih =>
    by_cases h : kv.1 = k
    · simp [jsGet, jsSet, if_pos h, List.find?]
    · simp only [jsSet, if_neg h]
      simpa [jsGet, List.find?, h] using ih

theorem setCache_length_le {K V : Type} [DecidableEq K] (now : Nat) (key : K)
    (value : V) (m : List (K × MemoEntry V)) (hm : m.length ≤ MAX_CACHE_SIZE) :
    (setCache now key value m).length ≤ MAX_CACHE_SIZE := by
  unfold setCache
  by_cases hfull : MAX_CACHE_SIZE ≤ m.length
  · match m with
    | [] => simp [MAX_CACHE_SIZE] at hfull
    | kv :: rest =>
      simp only [if_pos hfull, List.head?_cons]
      have h1 : (jsDelete kv.1 (kv :: rest)).length = rest.length := by
        simp [jsDelete]
      have h2 := jsSet_length_le key (⟨value, now⟩ : MemoEntry V)
        (jsDelete kv.1 (kv :: rest))
      simp only [List.length_cons] at hm
      omega
  · simp only [if_neg hfull]
    have h2 := jsSet_length_le key (⟨value, now⟩ : MemoEntry V) m
    omega

theorem getCache_length_le {K V : Type} [DecidableEq K] (now : Nat) (key : K)
    (m : List (K × MemoEntry V)) : (getCache now key m).2.length ≤ m.length := by
  unfold getCache
  match hg : jsGet key m with
  | none => simp
  | some e =>
    by_cases ht : CACHE_TTL_MS < now - e.timestamp
    · simpa [if_pos ht] using jsDelete_length_le key m
    · simp [if_neg ht]

theorem applyOp_length_le {K V : Type} [DecidableEq K] (op : MemoOp K V)
    (m : List (K × MemoEntry V)) (hm : m.length ≤ MAX_CACHE_SIZE) :
    (applyOp op m).length ≤ MAX_CACHE_SIZE := by
  match op with
  | .set now k v => exact setCache_length_le now k v m hm
  | .get now k => exact le_trans (getCache_length_le now k m) hm

/-- C9: the inference-response memo never exceeds `MAX_CACHE_SIZE` (100)
entries: every sequence of `setCache` and `getCache` calls starting from
the empty memo keeps `responseCache.size ≤ 100`. -/
theorem responseCache_size_bound {K V : Type} [DecidableEq K]
    (ops : List (MemoOp K V)) :
    (runOps ops ([] : List (K × MemoEntry V))).length ≤ MAX_CACHE_SIZE := by
  suffices h : ∀ m : List (K × MemoEntry V), m.length ≤ MAX_CACHE_SIZE →
      (runOps ops m).length ≤ MAX_CACHE_SIZE by
    exact h [] (by simp [MAX_CACHE_SIZE])
  induction ops with
  | nil => intro m hm; simpa [runOps] using hm
  | cons op ops ih =>
    intro m hm
    rw [runOps]
    exact ih _ (applyOp_length_le op m hm)

/-- C8: when `setCache` runs while the memo already holds
`MAX_CACHE_SIZE` entries, the entry removed is the head of the
insertion-ordered map — the first-inserted key still present — while the
new pair is stored by `jsSet` into the remainder.  The choice does not
consult timestamps or accesses, so it is insertion-order (FIFO), not
least-recently-used, eviction. -/
theorem setCache_evicts_first_inserted {K V : Type} [DecidableEq K]
    (k0 : K) (e0 : MemoEntry V) (rest : List (K × MemoEntry V))
    (now : Nat) (key : K) (value : V)
    (hfull : MAX_CACHE_SIZE ≤ ((k0, e0) :: rest).length) :
    setCache now key value ((k0, e0) :: rest) = jsSet key ⟨value, now⟩ rest := by
  have hfull2 : MAX_CACHE_SIZE ≤ rest.length + 1 := by simpa using hfull
  unfold setCache
  simp [hfull2, jsDelete]

/-- C8 witness: a memo holding exactly 100 entries whose first-inserted
key `0` carries the newest timestamp (999); `setCache` still evicts
key `0`, not a least-recently-used key. -/
theorem setCache_evicts_first_inserted_witness :
    MAX_CACHE_SIZE ≤ (((0 : Nat), (⟨42, 999⟩ : MemoEntry Nat)) :: rest99).length ∧
    setCache 1000 500 7 (((0 : Nat), (⟨42, 999⟩ : MemoEntry Nat)) :: rest99) =
      jsSet 500 ⟨7, 1000⟩ rest99 :=
  ⟨by decide, setCache_evicts_first_inserted 0 ⟨42, 999⟩ rest99 1000 500 7 (by decide)⟩

set_option maxRecDepth 4000 in
/-- C10 counterexample: in `evictTrace` the most recent `setCache` for
key `0` stored value `42` at time `0`, and at time `0` no time at all has
elapsed (well within `CACHE_TTL_MS`), yet `getCache` returns `null`
because the 100 later insertions evicted the entry by the size bound. -/
theorem getCache_fresh_entry_evicted :
    (getCache 0 0 (runOps evictTrace ([] : List (Nat × MemoEntry Nat)))).1 = none ∧
    0 - 0 ≤ CACHE_TTL_MS :=
  ⟨by decide, by decide⟩

/-- C10 amended: for a key whose entry is still present in the memo,
`getCache` returns the stored value exactly when at most `CACHE_TTL_MS`
has elapsed since its `setCache`; an older entry is deleted and `null`
returned; an absent key (never stored, or evicted by the size bound)
yields `null`; and `setCache` stores the value under its key with the
current timestamp. -/
theorem getCache_ttl_amended {K V : Type} [DecidableEq K] (now : Nat) (key : K)
    (m : List (K × MemoEntry V)) :
    (jsGet key m = none → getCache now key m = (none, m)) ∧
    (∀ e : MemoEntry V, jsGet key m = some e →
      (now - e.timestamp ≤ CACHE_TTL_MS → getCache now key m = (some e.value, m)) ∧
      (CACHE_TTL_MS < now - e.timestamp → getCache now key m = (none, jsDelete key m))) ∧
    (∀ value : V, jsGet key (setCache now key value m) = some ⟨value, now⟩) := by
  refine ⟨?_, ?_, ?_⟩
  · intro h
    simp [getCache, h]
  · intro e he
    constructor
    · intro ht
      simp [getCache, he, not_lt.mpr ht]
    · intro ht
      simp [getCache, he, if_pos ht]
  · intro value
    unfold setCache
    exact jsGet_jsSet key (⟨value, now⟩ : MemoEntry V) _

/-- C10 amended witness: in the one-entry memo `demoMemo` the entry for
key `1` (stored at time 2) is fresh at time 5, so `getCache` returns it. -/
theorem getCache_ttl_amended_witness :
    jsGet 1 demoMemo = some ⟨10, 2⟩ ∧
    getCache 5 1 demoMemo = (some 10, demoMemo) :=
  ⟨by decide,
    ((getCache_ttl_amended 5 1 demoMemo).2.1 ⟨10, 2⟩ (by decide)).1 (by decide)⟩

/-! ## Backend theorems -/

theorem emptyFingerprint_get (t : MonitoredTable) : emptyFingerprint.get t = none := by
  cases t <;> rfl

/-- C6: `hasChanged` returns exactly the monitored tables whose token
differs; it is empty on equal fingerprints, and against the empty
Fingerprint every table holding a token is reported changed. -/
theorem hasChanged_exact (oldFp newFp fp : Fingerprint) :
    (∀ t : MonitoredTable, t ∈ hasChanged oldFp newFp ↔ oldFp.get t ≠ newFp.get t) ∧
    hasChanged fp fp = ∅ ∧
    (∀ (t : MonitoredTable) (tok : TableToken), newFp.get t = some tok →
      t ∈ hasChanged emptyFingerprint newFp) := by
  refine ⟨?_, ?_, ?_⟩
  · intro t
    simp [hasChanged]
  · simp [hasChanged]
  · intro t tok h
    simp [hasChanged, emptyFingerprint_get, h]

/-- C6 witness: a fingerprint whose `profile` slot holds a token differs
from the empty Fingerprint on `profile`. -/
theorem hasChanged_exact_witness :
    (⟨some ⟨3, 7⟩, none, none, none, none, none⟩ : Fingerprint).get .profile =
      some ⟨3, 7⟩ ∧
    MonitoredTable.profile ∈
      hasChanged emptyFingerprint ⟨some ⟨3, 7⟩, none, none, none, none, none⟩ :=
  ⟨rfl,
    (hasChanged_exact emptyFingerprint
        ⟨some ⟨3, 7⟩, none, none, none, none, none⟩ emptyFingerprint).2.2
      .profile ⟨3, 7⟩ rfl⟩

/-- C5: `compute` called with a table name outside the allow-list fails
with `InvalidTableError` and issues no metadata query against the record
store. -/
theorem compute_rejects_invalid_table (store : RecordStore)
    (tables : List String) (name : String) (hmem : name ∈ tables)
    (hbad : name ∉ allowList) :
    compute store tables = (.error .invalidTable, []) := by
  unfold compute
  rw [if_neg]
  intro hall
  rw [List.all_eq_true] at hall
  have h := hall name hmem
  simp at h
  exact hbad h

/-- C5 witness: the table name `users` is outside the allow-list, so
`compute` rejects it and issues no query. -/
theorem compute_rejects_invalid_table_witness :
    "users" ∈ ["users"] ∧ "users" ∉ allowList ∧
    compute demoStore ["users"] = (.error .invalidTable, []) :=
  ⟨by decide, by decide,
    compute_rejects_invalid_table demoStore ["users"] "users" (by decide)
      (by decide)⟩

theorem decodeToken_encodeToken (t : Option TableToken) (rest : List Nat) :
    decodeToken (encodeToken t ++ rest) = some (t, rest) := by
  cases t <;> rfl

theorem decodeToken_encodeToken_nil (t : Option TableToken) :
    decodeToken (encodeToken t) = some (t, []) := by
  cases t <;> rfl

theorem decode_encode (fp : Fingerprint) :
    decodeFingerprint (encodeFingerprint fp) = some fp := by
  obtain ⟨p, w, md, sy, b, d⟩ := fp
  simp [encodeFingerprint, decodeFingerprint, STATE_VERSION,
    decodeToken_encodeToken, decodeToken_encodeToken_nil]

/-- C3: `StateStore.load` never fails: a missing persisted file yields
the empty Fingerprint, and malformed content also yields the empty
Fingerprint while the file is discarded, rather than raising at
startup. -/
theorem load_never_fails :
    load none = (emptyFingerprint, none) ∧
    ∀ bytes : List Nat, decodeFingerprint bytes = none →
      load (some bytes) = (emptyFingerprint, none) := by
  refine ⟨rfl, ?_⟩
  intro bytes h
  simp [load, h]

/-- C3 witness: the corrupted file `[99]` (bad version marker) does not
parse, and `load` recovers with the empty Fingerprint. -/
theorem load_never_fails_witness :
    decodeFingerprint [99] = none ∧
    load (some [99]) = (emptyFingerprint, none) :=
  ⟨by decide, load_never_fails.2 [99] (by decide)⟩

/-- C4: persistence round-trip — `save(fp)` followed by `load()` yields a
Fingerprint equal to `fp`, for every fingerprint. -/
theorem save_load_roundtrip (fp : Fingerprint) : (load (save fp)).1 = fp := by
  simp [load, save, decode_encode]

/-- C7: the status query's `monitored_tables` field is exactly the fixed
allow-list for every cache state, and `last_updated` is the `builtAt`
timestamp of the current valid entry, absent when no valid entry
exists. -/
theorem cache_status_fields (entry : Option ContextEntry) :
    (getCacheStatus entry).monitored_tables =
      ["profile", "weekly_weight", "weekly_medicine", "weekly_symptoms",
       "blood_pressure_logs", "discharge_logs"] ∧
    (∀ e : ContextEntry, currentValidEntry entry = some e →
      (getCacheStatus entry).last_updated = some e.builtAt) ∧
    (currentValidEntry entry = none →
      (getCacheStatus entry).last_updated = none) := by
  refine ⟨rfl, ?_, ?_⟩
  · intro e h
    simp [getCacheStatus, h]
  · intro h
    simp [getCacheStatus, h]

/-- C7 witness: with a valid entry built at time 123, the status query
reports `last_updated = 123`. -/
theorem cache_status_fields_witness :
    currentValidEntry (some ⟨demoCtx, 123, true⟩) = some ⟨demoCtx, 123, true⟩ ∧
    (getCacheStatus (some ⟨demoCtx, 123, true⟩)).last_updated = some 123 :=
  ⟨rfl, (cache_status_fields (some ⟨demoCtx, 123, true⟩)).2.1 ⟨demoCtx, 123, true⟩ rfl⟩

/-- C2: when the rebuild fails, a `get` on an invalidated key serves the
previous (now-invalidated) entry's context as stale fallback and leaves
the entry invalid, so a later `get` with a succeeding builder rebuilds;
with no previous entry the builder's error is surfaced to the caller and
a later `get` likewise retries the rebuild. -/
theorem cacheGet_build_failure (err : CacheError) (now : Nat) :
    (∀ e : ContextEntry, e.valid = false →
      cacheGet (.error err) now (some e) = (.ok e.context, some e) ∧
      ∀ (c : Context) (now2 : Nat),
        cacheGet (.ok c) now2 (cacheGet (.error err) now (some e)).2 =
          (.ok c, some ⟨c, now2, true⟩)) ∧
    cacheGet (.error err) now none = (.error err, none) ∧
    (∀ (c : Context) (now2 : Nat),
      cacheGet (.ok c) now2 (cacheGet (.error err) now none).2 =
        (.ok c, some ⟨c, now2, true⟩)) := by
  refine ⟨?_, rfl, ?_⟩
  · intro e hv
    have h1 : cacheGet (.error err) now (some e) = (.ok e.context, some e) := by
      simp [cacheGet, currentValidEntry, hv, deliver, buildEntry]
    refine ⟨h1, ?_⟩
    intro c now2
    rw [h1]
    simp [cacheGet, currentValidEntry, hv, deliver, buildEntry]
  · intro c now2
    simp [cacheGet, currentValidEntry, deliver, buildEntry]

/-- C2 witness: with the invalidated entry `demoStale`, a failed rebuild
serves the stale context and leaves the entry invalid. -/
theorem cacheGet_build_failure_witness :
    demoStale.valid = false ∧
    cacheGet (.error .buildFailure) 9 (some demoStale) =
      (.ok demoStale.context, some demoStale) :=
  ⟨rfl, ((cacheGet_build_failure .buildFailure 9).1 demoStale rfl).1⟩

/-! ## Single-flight theorems -/

theorem lt_length_of_getElem? {α : Type} {l : List α} {i : Nat} {c : α}
    (h : l[i]? = some c) : i < l.length := by
  have h2 := List.getElem?_eq_some.mp h
  exact h2.1

theorem getElem?_set_cases {α : Type} (l : List α) (i j : Nat) (a : α) (c : α)
    (h : (l.set i a)[j]? = some c) :
    (j = i ∧ c = a) ∨ (j ≠ i ∧ l[j]? = some c) := by
  by_cases hji : j = i
  · subst hji
    refine Or.inl ⟨rfl, ?_⟩
    have hlt : j < l.length := by
      have h2 := lt_length_of_getElem? h
      simpa using h2
    rw [List.getElem?_set_eq_of_lt a hlt] at h
    exact (Option.some.inj h).symm
  · rw [List.getElem?_set_ne (Ne.symm hji)] at h
    exact Or.inr ⟨hji, h⟩

theorem Inv_init (buildRes : Except CacheError Context) (now : Nat)
    (entry0 : Option ContextEntry) (n : Nat) :
    Inv buildRes now entry0 n (initState n entry0) := by
  refine ⟨by simp [initState], rfl, rfl, ?_⟩
  intro j c h
  simp only [initState, List.getElem?_replicate] at h
  split at h
  · exact (Option.some.inj h).symm
  · exact Option.noConfusion h

theorem Inv_step (buildRes : Except CacheError Context) (now : Nat)
    (entry0 : Option ContextEntry) (n : Nat)
    (h0 : currentValidEntry entry0 = none)
    {s s2 : SysState} (hstep : Step buildRes now s s2)
    (hinv : Inv buildRes now entry0 n s) :
    Inv buildRes now entry0 n s2 := by
  obtain ⟨hlen, hrest⟩ := hinv
  cases hstep with
  | hit i e hi hv =>
    obtain ⟨en, fl, bc, cs⟩ := s
    cases fl with
    | idle =>
      obtain ⟨hb, hen, hall⟩ := hrest
      rw [hen, h0] at hv
      exact Option.noConfusion hv
    | running =>
      obtain ⟨hb, hen, hall, huniq⟩ := hrest
      rw [hen, h0] at hv
      exact Option.noConfusion hv
    | finished r =>
      obtain ⟨hb, hen, hr, hall⟩ := hrest
      cases buildRes with
      | error err =>
        simp only [buildEntry] at hen
        rw [hen, h0] at hv
        exact Option.noConfusion hv
      | ok c =>
        simp only [buildEntry] at hen
        subst hen
        simp only [currentValidEntry, if_pos] at hv
        have he : e = ⟨c, now, true⟩ := (Option.some.inj hv).symm
        refine ⟨by simpa using hlen, hb, rfl, hr, ?_⟩
        intro j c2 hj
        rcases getElem?_set_cases cs i j _ c2 hj with ⟨hji, hc2⟩ | ⟨hji, hc2⟩
        · subst hc2
          right; right
          rw [he, hr]
          simp [deliver]
        · exact hall j c2 hc2
  | beginBuild i hi hv hf =>
    obtain ⟨en, fl, bc, cs⟩ := s
    simp only at hf
    subst hf
    obtain ⟨hb, hen, hall⟩ := hrest
    have hb2 : bc = 0 := hb
    refine ⟨by simpa using hlen, by show bc + 1 = 1; omega, hen, ?_, ?_⟩
    · intro j c2 hj
      rcases getElem?_set_cases cs i j _ c2 hj with ⟨hji, hc2⟩ | ⟨hji, hc2⟩
      · subst hc2
        right; right; rfl
      · rw [hall j c2 hc2]
        left; rfl
    · intro j k hj hk
      rcases getElem?_set_cases cs i j _ _ hj with ⟨hji, _⟩ | ⟨hji, hc2⟩
      · rcases getElem?_set_cases cs i k _ _ hk with ⟨hki, _⟩ | ⟨hki, hc3⟩
        · rw [hji, hki]
        · exact absurd (hall k _ hc3) (by simp)
      · exact absurd (hall j _ hc2) (by simp)
  | observe i hi hv hne =>
    obtain ⟨en, fl, bc, cs⟩ := s
    cases fl with
    | idle => exact absurd rfl hne
    | running =>
      obtain ⟨hb, hen, hall, huniq⟩ := hrest
      refine ⟨by simpa using hlen, hb, hen, ?_, ?_⟩
      · intro j c2 hj
        rcases getElem?_set_cases cs i j _ c2 hj with ⟨hji, hc2⟩ | ⟨hji, hc2⟩
        · subst hc2
          right; left; rfl
        · exact hall j c2 hc2
      · intro j k hj hk
        rcases getElem?_set_cases cs i j _ _ hj with ⟨hji, hc2⟩ | ⟨hji, hc2⟩
        · exact absurd hc2 (by simp)
        · rcases getElem?_set_cases cs i k _ _ hk with ⟨hki, hc3⟩ | ⟨hki, hc3⟩
          · exact absurd hc3 (by simp)
          · exact huniq j k hc2 hc3
    | finished r =>
      obtain ⟨hb, hen, hr, hall⟩ := hrest
      refine ⟨by simpa using hlen, hb, hen, hr, ?_⟩
      intro j c2 hj
      rcases getElem?_set_cases cs i j _ c2 hj with ⟨hji, hc2⟩ | ⟨hji, hc2⟩
      · subst hc2
        right; left; rfl
      · exact hall j c2 hc2
  | finishBuild i hi hf =>
    obtain ⟨en, fl, bc, cs⟩ := s
    simp only at hf
    subst hf
    obtain ⟨hb, hen, hall, huniq⟩ := hrest
    subst hen
    refine ⟨by simpa using hlen, hb, rfl, rfl, ?_⟩
    intro j c2 hj
    rcases getElem?_set_cases cs i j _ c2 hj with ⟨hji, hc2⟩ | ⟨hji, hc2⟩
    · subst hc2
      right; right; rfl
    · rcases hall j c2 hc2 with h | h | h
      · left; exact h
      · right; left; exact h
      · exact absurd (huniq j i (h ▸ hc2) hi) hji
  | resume i r hi hf =>
    obtain ⟨en, fl, bc, cs⟩ := s
    simp only at hf
    subst hf
    obtain ⟨hb, hen, hr, hall⟩ := hrest
    refine ⟨by simpa using hlen, hb, hen, hr, ?_⟩
    intro j c2 hj
    rcases getElem?_set_cases cs i j _ c2 hj with ⟨hji, hc2⟩ | ⟨hji, hc2⟩
    · subst hc2
      right; right; rfl
    · exact hall j c2 hc2

theorem Inv_reach (buildRes : Except CacheError Context) (now : Nat)
    (entry0 : Option ContextEntry) (n : Nat)
    (h0 : currentValidEntry entry0 = none) {s : SysState}
    (hreach : Relation.ReflTransGen (Step buildRes now) (initState n entry0) s) :
    Inv buildRes now entry0 n s := by
  induction hreach with
  | refl => exact Inv_init buildRes now entry0 n
  | tail hab hbc ih => exact Inv_step buildRes now entry0 n h0 hbc ih

/-- C1: single-flight rebuild — in every interleaving of `n` concurrent
`get` calls on an invalidated key, the builder is never invoked twice
(at most one `ContextBuilder.build` call in flight at any time), and once
every caller has finished, the builder was invoked exactly once and all
callers received the same result. -/
theorem single_flight_rebuild (buildRes : Except CacheError Context) (now : Nat)
    (entry0 : Option ContextEntry) (h0 : currentValidEntry entry0 = none)
    (n : Nat) (hn : 0 < n) (s : SysState)
    (hreach : Relation.ReflTransGen (Step buildRes now) (initState n entry0) s) :
    s.builderCalls ≤ 1 ∧
      ((∀ (j : Nat) (c : CallerState), s.callers[j]? = some c → ∃ r, c = .done r) →
        s.builderCalls = 1 ∧
          ∃ r : Except CacheError Context,
            ∀ (j : Nat) (c : CallerState), s.callers[j]? = some c → c = .done r) := by
  obtain ⟨hlen, hrest⟩ := Inv_reach buildRes now entry0 n h0 hreach
  obtain ⟨en, fl, bc, cs⟩ := s
  simp only at hlen hrest ⊢
  have hc0 : ∃ c, cs[0]? = some c := by
    have hlt : 0 < cs.length := by omega
    exact ⟨_, List.getElem?_eq_getElem hlt⟩
  cases fl with
  | idle =>
    obtain ⟨hb, hen, hall⟩ := hrest
    refine ⟨by omega, ?_⟩
    intro hdone
    obtain ⟨c, hc⟩ := hc0
    obtain ⟨r, hr⟩ := hdone 0 c hc
    rw [hall 0 c hc] at hr
    exact absurd hr (by simp)
  | running =>
    obtain ⟨hb, hen, hall, huniq⟩ := hrest
    refine ⟨by omega, ?_⟩
    intro hdone
    obtain ⟨c, hc⟩ := hc0
    obtain ⟨r, hr⟩ := hdone 0 c hc
    rcases hall 0 c hc with h | h | h <;> rw [h] at hr <;> exact absurd hr (by simp)
  | finished r =>
    obtain ⟨hb, hen, hr, hall⟩ := hrest
    refine ⟨by omega, ?_⟩
    intro hdone
    refine ⟨hb, r, ?_⟩
    intro j c hc
    rcases hall j c hc with h | h | h
    · obtain ⟨r2, hr2⟩ := hdone j c hc
      rw [h] at hr2
      exact absurd hr2 (by simp)
    · obtain ⟨r2, hr2⟩ := hdone j c hc
      rw [h] at hr2
      exact absurd hr2 (by simp)
    · exact h

/-- C1 witness: a one-caller run — begin the rebuild, finish it
successfully — reaches `demoFinal`, where the theorem yields exactly one
builder call and a common result for every caller. -/
theorem single_flight_rebuild_witness :
    demoFinal.builderCalls ≤ 1 ∧
      ((∀ (j : Nat) (c : CallerState), demoFinal.callers[j]? = some c →
          ∃ r, c = .done r) →
        demoFinal.builderCalls = 1 ∧
          ∃ r : Except CacheError Context,
            ∀ (j : Nat) (c : CallerState), demoFinal.callers[j]? = some c →
              c = .done r) := by
  refine single_flight_rebuild (.ok demoCtx) 0 none rfl 1 (by decide) demoFinal ?_
  have h1 : Step (.ok demoCtx) 0 (initState 1 none) demoMid :=
    Step.beginBuild (initState 1 none) 0 rfl rfl rfl
  have h2 : Step (.ok demoCtx) 0 demoMid demoFinal :=
    Step.finishBuild demoMid 0 rfl rfl
  exact (Relation.ReflTransGen.single h1).tail h2

end BabyNest
